import Mathlib

/-!
# BinCrypt: a verified shallow embedding

Shallow embedding of the codec core of `BinCrypt.py`:

* `file_to_binary` / `deconvert_binary` — plain byte ↔ 8-bit binary-text codec;
* `encrypt` / `decrypt` — the byte-splitting pair: each byte is split into a
  7-bit payload group and a 1-bit key character, and reassembled from the two
  streams in lock-step.

Bytes are modelled as `Nat` (Python ints read from a binary file), text lines
as `List Char` without their terminating newline, and files as `List (List Char)`
(one element per line).  Fallible passes return `Option`: `none` models the
broad `except Exception` handler of `decrypt` returning the empty string.
-/

namespace BinCrypt

/-- The ASCII characters stripped by Python's `str.strip()` (the characters
`c` in the ASCII range with `c.isspace()`): space, `\t`, `\n`, `\v`, `\f`,
`\r`, and the separator controls `\x1c`–`\x1f`. -/
def isPySpace (c : Char) : Bool :=
  c = ' ' || c = '\t' || c = '\n' || c = '\x0d' || c = '\x0b' || c = '\x0c' ||
    c = '\x1c' || c = '\x1d' || c = '\x1e' || c = '\x1f'

/-- Python `line.strip()`: drop leading and trailing whitespace. -/
def pyStrip (l : List Char) : List Char :=
  ((l.dropWhile isPySpace).reverse.dropWhile isPySpace).reverse

/-- Python `line.strip().replace(' ', '')`: the decoder's line normalisation. -/
def preprocess (l : List Char) : List Char :=
  (pyStrip l).filter (fun c => c ≠ ' ')

/-- `all(c in '01' for c in s)`. -/
def all01 (l : List Char) : Bool :=
  l.all (fun c => c = '0' || c = '1')

/-- The character of a binary digit, as produced by Python's `format(_, 'b')`
and `str(_)` on a value in {0, 1}. -/
def bitChar (n : Nat) : Char :=
  if n = 1 then '1' else '0'

/-- Binary digits of `n`, most significant first, at least one digit —
the unpadded part of Python's `format(n, 'b')`. -/
def bits (n : Nat) : List Char :=
  if n < 2 then [bitChar n] else bits (n / 2) ++ [bitChar (n % 2)]
termination_by n
decreasing_by exact Nat.div_lt_self (by omega) (by omega)

/-- Zero-pad on the left to width `w` (never truncates), as Python's
field-width padding does. -/
def pad (w : Nat) (s : List Char) : List Char :=
  List.replicate (w - s.length) '0' ++ s

/-- Python `format(n, '0{w}b')`: `w`-character zero-padded binary, MSB first. -/
def formatBin (w : Nat) (n : Nat) : List Char :=
  pad w (bits n)

/-- Python `int(s, 2)` on a string of '0'/'1' characters (the code validates
the string before calling `int`). -/
def parseBits (l : List Char) : Nat :=
  l.foldl (fun a c => 2 * a + (if c = '1' then 1 else 0)) 0

/-- Python `int(s)` on a single ASCII character: a decimal digit parses to its
value, anything else raises `ValueError` (modelled as `none`). -/
def pyIntDigit (c : Char) : Option Nat :=
  if '0' ≤ c ∧ c ≤ '9' then some (c.toNat - 48) else none

/-- The `while True: chunk = f.read(chunk_size)` loop: split a byte list into
consecutive chunks of `n` bytes (the last may be shorter).  `read(0)` returns
the empty bytes object, so chunk size 0 yields no chunks at all. -/
def chunks (n : Nat) (l : List α) : List (List α) :=
  if l.isEmpty || n == 0 then [] else l.take n :: chunks n (l.drop n)
termination_by l.length
decreasing_by
  rename_i h
  simp only [Bool.or_eq_true, beq_iff_eq, List.isEmpty_iff] at h
  push_neg at h
  have := List.length_pos.mpr h.1
  simp only [List.length_drop]
  omega

/-- `separator.join(groups)` followed by the newline: we model the line
content, so just the join. -/
def joinSep (sep : List Char) : List (List Char) → List Char
  | [] => []
  | [g] => g
  | g :: gs => g ++ sep ++ joinSep sep gs

/-- One recoverable diagnostic, carrying the text the Python message embeds. -/
inductive Diag where
  /-- `"Invalid char in line: {line.strip()}"` -/
  | invalidCharLine (line : List Char)
  /-- `"Incomplete binary len line: {line.strip()}"` -/
  | incompleteLen (line : List Char)
  /-- `"Skipped incomplete chunk: {chunk}"` -/
  | skippedIncomplete (chunk : List Char)
  /-- `"Invalid binary chunk: {chunk}"` -/
  | invalidChunk (chunk : List Char)
  /-- `"Ran out of key bits"` -/
  | keyExhausted
  deriving DecidableEq, Repr

/-- `_process_binary_chunk`: validate a group's width and characters, then
`chr(int(chunk, 2))`; the reconstructed code point is returned as a `Nat`. -/
def process_binary_chunk (chunk : List Char) (bit_length : Nat) :
    Option Nat × Option Diag :=
  if chunk.length ≠ bit_length then (none, some (.skippedIncomplete chunk))
  else if ¬ all01 chunk then (none, some (.invalidChunk chunk))
  else (some (parseBits chunk), none)

/-- `_split_byte`: 7-bit zero-padded binary of `byte >> 1`, and `str(byte & 1)`. -/
def split_byte (b : Nat) : List Char × Char :=
  (formatBin 7 (b >>> 1), bitChar (b &&& 1))

/-- The encoding loop of `file_to_binary`: one line per chunk, each byte as
`format(byte, '08b')`, space-joined when `spacing`. -/
def file_to_binary (spacing : Bool) (chunkSize : Nat) (B : List Nat) :
    List (List Char) :=
  (chunks chunkSize B).map
    (fun c => joinSep (if spacing then [' '] else []) (c.map (formatBin 8)))

/-- The encoding loop of `encrypt`: per chunk, the payload line joins the
7-bit halves (space-joined when `spacing`) and the key line concatenates the
1-bit characters with no separator. -/
def encrypt (spacing : Bool) (chunkSize : Nat) (B : List Nat) :
    List (List Char) × List (List Char) :=
  ((chunks chunkSize B).map
    (fun c => joinSep (if spacing then [' '] else []) (c.map (fun b => (split_byte b).1))),
   (chunks chunkSize B).map (fun c => c.map (fun b => (split_byte b).2)))

/-- The inner loop of `deconvert_binary` over the width-`w` groups of one
line: successful groups append their character, failed groups append their
diagnostic. -/
def decodeGroups (w : Nat) : List (List Char) → List Nat × List Diag
  | [] => ([], [])
  | g :: gs =>
    let r := process_binary_chunk g w
    let rest := decodeGroups w gs
    (r.1.toList ++ rest.1, r.2.toList ++ rest.2)

/-- One line of `deconvert_binary`: an invalid character skips the whole
line with one diagnostic; a length not a multiple of 8 adds a diagnostic
before the group loop runs. -/
def deconvertLine (L : List Char) : List Nat × List Diag :=
  let s := preprocess L
  if ¬ all01 s then ([], [.invalidCharLine (pyStrip L)])
  else
    let r := decodeGroups 8 (chunks 8 s)
    (r.1, (if s.length % 8 ≠ 0 then [.incompleteLen (pyStrip L)] else []) ++ r.2)

/-- `deconvert_binary`: fold the per-line decoder over the file, concatenating
text and diagnostics in encounter order. -/
def deconvert_binary : List (List Char) → List Nat × List Diag
  | [] => ([], [])
  | L :: Ls =>
    let r := deconvertLine L
    let rest := deconvert_binary Ls
    (r.1 ++ rest.1, r.2 ++ rest.2)

/-- `key_bits = ''.join(line.strip() for line in key_lines)`. -/
def keyStream (kls : List (List Char)) : List Char :=
  (kls.map pyStrip).flatten

/-- The inner loop of `decrypt` over the 7-bit groups of one line.  An
exhausted key stream breaks out of the line with one diagnostic; a malformed
group is skipped without consuming a key bit; a valid group reads
`int(key_bits[key_index])` — `none` models the `ValueError` a non-digit key
character raises, which the outer handler turns into an aborted pass —
and appends `(seven_bits << 1) | last_bit`. -/
def decryptGroups (keyBits : List Char) : Nat → List (List Char) →
    Option (List Nat × List Diag × Nat)
  | ki, [] => some ([], [], ki)
  | ki, g :: gs =>
    if keyBits.length ≤ ki then some ([], [.keyExhausted], ki)
    else
      match process_binary_chunk g 7 with
      | (some seven, _) =>
        match pyIntDigit (keyBits.getD ki ' ') with
        | none => none
        | some lastBit =>
          match decryptGroups keyBits (ki + 1) gs with
          | none => none
          | some (ts, ds, kf) => some (((seven <<< 1) ||| lastBit) :: ts, ds, kf)
      | (none, e) =>
        match decryptGroups keyBits ki gs with
        | none => none
        | some (ts, ds, kf) => some (ts, e.toList ++ ds, kf)

/-- One line of `decrypt`: same line normalisation and line-level checks as
`deconvert_binary`, with width 7, threading the key index through. -/
def decryptLine (keyBits : List Char) (ki : Nat) (L : List Char) :
    Option (List Nat × List Diag × Nat) :=
  let s := preprocess L
  if ¬ all01 s then some ([], [.invalidCharLine (pyStrip L)], ki)
  else
    match decryptGroups keyBits ki (chunks 7 s) with
    | none => none
    | some (ts, ds, kf) =>
      some (ts, (if s.length % 7 ≠ 0 then [.incompleteLen (pyStrip L)] else []) ++ ds, kf)

/-- The line loop of `decrypt`: the key index is shared across the whole
file, never reset per line. -/
def decryptLines (keyBits : List Char) : Nat → List (List Char) →
    Option (List Nat × List Diag × Nat)
  | ki, [] => some ([], [], ki)
  | ki, L :: Ls =>
    match decryptLine keyBits ki L with
    | none => none
    | some (ts, ds, k2) =>
      match decryptLines keyBits k2 Ls with
      | none => none
      | some (ts2, ds2, kf) => some (ts ++ ts2, ds ++ ds2, kf)

/-- `decrypt`: materialise the key stream, run the line loop from key index 0.
`none` models the pass aborting through the broad exception handler (the
Python function then returns the empty string and surfaces no diagnostics). -/
def decrypt (pls kls : List (List Char)) : Option (List Nat × List Diag) :=
  match decryptLines (keyStream kls) 0 pls with
  | none => none
  | some (ts, ds, _) => some (ts, ds)

/-- Modelled from the spec and the Python runtime: `save_file` writes the
reconstructed string with `encoding='utf-8'`; this is UTF-8 encoding of one
code point below 0x800 (every code point the decoders produce is below 256). -/
def utf8EncodeChar (c : Nat) : List Nat :=
  if c < 128 then [c] else [192 + c / 64, 128 + c % 64]

/-- The byte sequence `save_file` writes for a reconstructed string. -/
def utf8Encode (cs : List Nat) : List Nat :=
  cs.flatMap utf8EncodeChar

/-! ## Arithmetic on binary strings -/

theorem parseBits_append_single (l : List Char) (c : Char) :
    parseBits (l ++ [c]) = 2 * parseBits l + (if c = '1' then 1 else 0) := by
  simp [parseBits, List.foldl_append]

theorem parseBits_replicate_zero_append (k : Nat) (l : List Char) :
    parseBits (List.replicate k '0' ++ l) = parseBits l := by
  have h : ∀ m, List.foldl (fun a c => 2 * a + (if c = '1' then 1 else 0)) 0
      (List.replicate m '0') = 0 := by
    intro m
    induction m with
    | zero => rfl
    | succ m ih => simpa [List.replicate_succ] using ih
  simp [parseBits, List.foldl_append, h]

theorem parseBits_bits (n : Nat) : parseBits (bits n) = n := by
  induction n using Nat.strong_induction_on with
  | _ n ih =>
    rw [bits]
    by_cases h : n < 2
    · rw [if_pos h]
      interval_cases n <;> simp [parseBits, bitChar]
    · rw [if_neg h]
      rw [parseBits_append_single, ih (n / 2) (Nat.div_lt_self (by omega) (by omega))]
      rcases Nat.mod_two_eq_zero_or_one n with hm | hm <;>
        simp [hm, bitChar] <;> omega

theorem bits_ne_nil (n : Nat) : bits n ≠ [] := by
  rw [bits]
  by_cases h : n < 2 <;> simp [h]

theorem bits_length_le (n w : Nat) (hw : 1 ≤ w) (hn : n < 2 ^ w) :
    (bits n).length ≤ w := by
  induction n using Nat.strong_induction_on generalizing w with
  | _ n ih =>
    rw [bits]
    by_cases h : n < 2
    · rw [if_pos h]
      simpa using hw
    · rw [if_neg h]
      have hw2 : 2 ≤ w := by
        by_contra hc
        have : w = 1 := by omega
        subst this
        omega
      have hdiv : n / 2 < 2 ^ (w - 1) := by
        rw [Nat.div_lt_iff_lt_mul (by omega)]
        have : 2 ^ (w - 1) * 2 = 2 ^ w := by
          rw [← Nat.pow_succ]
          congr 1
          omega
        omega
      have := ih (n / 2) (Nat.div_lt_self (by omega) (by omega)) (w - 1) (by omega) hdiv
      simp only [List.length_append, List.length_singleton]
      omega

theorem bits_all01 (n : Nat) : ∀ c ∈ bits n, c = '0' ∨ c = '1' := by
  induction n using Nat.strong_induction_on with
  | _ n ih =>
    rw [bits]
    by_cases h : n < 2
    · rw [if_pos h]
      intro c hc
      simp only [List.mem_singleton] at hc
      subst hc
      unfold bitChar
      by_cases h1 : n = 1 <;> simp [h1]
    · rw [if_neg h]
      intro c hc
      rw [List.mem_append] at hc
      rcases hc with hc | hc
      · exact ih (n / 2) (Nat.div_lt_self (by omega) (by omega)) c hc
      · simp only [List.mem_singleton] at hc
        subst hc
        unfold bitChar
        by_cases h1 : n % 2 = 1 <;> simp [h1]

theorem pad_length (w : Nat) (s : List Char) (h : s.length ≤ w) :
    (pad w s).length = w := by
  simp [pad]
  omega

theorem formatBin_length (w n : Nat) (hw : 1 ≤ w) (hn : n < 2 ^ w) :
    (formatBin w n).length = w :=
  pad_length w (bits n) (bits_length_le n w hw hn)

theorem formatBin_all01 (w n : Nat) : all01 (formatBin w n) = true := by
  rw [all01, List.all_eq_true]
  intro c hc
  rw [formatBin, pad, List.mem_append] at hc
  rcases hc with hc | hc
  · rw [List.eq_of_mem_replicate hc]
    simp
  · rcases bits_all01 n c hc with h | h <;> simp [h]

theorem parseBits_formatBin (w n : Nat) : parseBits (formatBin w n) = n := by
  rw [formatBin, pad, parseBits_replicate_zero_append, parseBits_bits]

/-- A well-formed `w`-bit group is accepted by `_process_binary_chunk` and
parses back to its value. -/
theorem process_binary_chunk_formatBin (w n : Nat) (hw : 1 ≤ w) (hn : n < 2 ^ w) :
    process_binary_chunk (formatBin w n) w = (some n, none) := by
  rw [process_binary_chunk, if_neg (by rw [formatBin_length w n hw hn]; omega),
    if_neg (by rw [formatBin_all01]; simp), parseBits_formatBin]

theorem two_mul_lor_one (k : Nat) : 2 * k ||| 1 = 2 * k + 1 := by
  apply Nat.eq_of_testBit_eq
  intro i
  cases i with
  | zero =>
    simp [Nat.testBit_lor, Nat.testBit_zero]
    omega
  | succ j =>
    rw [Nat.testBit_lor, Nat.testBit_succ, Nat.testBit_succ, Nat.testBit_succ]
    have h1 : 2 * k / 2 = k := by omega
    have h2 : (2 * k + 1) / 2 = k := by omega
    have h3 : (1 : Nat) / 2 = 0 := by omega
    rw [h1, h2, h3]
    simp [Nat.zero_testBit]

theorem two_mul_lor_bit (k r : Nat) (h : r < 2) : 2 * k ||| r = 2 * k + r := by
  interval_cases r
  · simp
  · exact two_mul_lor_one k

/-- Reassembly undoes the split: `(b >> 1) << 1 | (b & 1) = b`. -/
theorem shift_join (b : Nat) : ((b >>> 1) <<< 1) ||| (b &&& 1) = b := by
  have h1 : (b >>> 1) <<< 1 = 2 * (b / 2) := by
    rw [Nat.shiftRight_one, Nat.shiftLeft_eq]
    omega
  rw [h1, Nat.and_one_is_mod, two_mul_lor_bit _ _ (Nat.mod_lt b (by omega))]
  omega

/-! ## Chunking -/

theorem chunks_nil (n : Nat) : chunks n ([] : List α) = [] := by
  rw [chunks]
  simp

theorem chunks_cons (n : Nat) (l : List α) (hl : l ≠ []) (hn : 0 < n) :
    chunks n l = l.take n :: chunks n (l.drop n) := by
  rw [chunks]
  rw [if_neg]
  simp [hl, List.isEmpty_iff]
  omega

theorem chunks_flatten (n : Nat) (hn : 0 < n) (l : List α) :
    (chunks n l).flatten = l := by
  have key : ∀ (k : Nat) (l : List α), l.length ≤ k → (chunks n l).flatten = l := by
    intro k
    induction k with
    | zero =>
      intro l hl
      have : l = [] := List.length_eq_zero.mp (by omega)
      rw [this, chunks_nil]
      rfl
    | succ k ih =>
      intro l hl
      by_cases h : l = []
      · rw [h, chunks_nil]
        rfl
      · rw [chunks_cons n l h hn]
        rw [List.flatten_cons, ih (l.drop n) (by simp [List.length_drop]; omega)]
        exact List.take_append_drop n l
  exact key l.length l le_rfl

theorem chunks_mem_props (n : Nat) (hn : 0 < n) (l : List α) :
    ∀ c ∈ chunks n l, c ≠ [] ∧ ∀ b ∈ c, b ∈ l := by
  have key : ∀ (k : Nat) (l : List α), l.length ≤ k →
      ∀ c ∈ chunks n l, c ≠ [] ∧ ∀ b ∈ c, b ∈ l := by
    intro k
    induction k with
    | zero =>
      intro l hl c hc
      have : l = [] := List.length_eq_zero.mp (by omega)
      rw [this, chunks_nil] at hc
      simp at hc
    | succ k ih =>
      intro l hl c hc
      by_cases h : l = []
      · rw [h, chunks_nil] at hc
        simp at hc
      · rw [chunks_cons n l h hn] at hc
        rcases List.mem_cons.mp hc with hc | hc
        · subst hc
          constructor
          · simp [List.take_eq_nil_iff]
            constructor
            · omega
            · exact h
          · intro b hb
            exact List.take_subset n l hb
        · have := ih (l.drop n) (by simp [List.length_drop]; omega) c hc
          exact ⟨this.1, fun b hb => List.drop_subset n l (this.2 b hb)⟩
  exact key l.length l le_rfl

/-- Re-chunking a flattened list of width-`w` groups recovers the groups:
the group loop `for i in range(0, len(s), w)` sees exactly the encoder's
groups. -/
theorem chunks_flatten_groups (w : Nat) (hw : 0 < w) (gs : List (List Char))
    (h : ∀ g ∈ gs, g.length = w) : chunks w gs.flatten = gs := by
  induction gs with
  | nil => exact chunks_nil w
  | cons g gs ih =>
    have hg : g.length = w := h g (by simp)
    have hne : g ≠ [] := by
      intro hc
      rw [hc] at hg
      simp at hg
      omega
    rw [List.flatten_cons, chunks_cons w _ (by simp [hne]) hw,
      List.take_left' hg, List.drop_left' hg,
      ih (fun g hg => h g (by simp [hg]))]

/-- A flattened list of width-`w` groups has length a multiple of `w`. -/
theorem flatten_groups_length (w : Nat) (gs : List (List Char))
    (h : ∀ g ∈ gs, g.length = w) : gs.flatten.length = w * gs.length := by
  induction gs with
  | nil => simp
  | cons g gs ih =>
    simp only [List.flatten_cons, List.length_append, List.length_cons]
    rw [h g (by simp), ih (fun g hg => h g (by simp [hg]))]
    ring

/-! ## Line normalisation -/

theorem filter_dropWhile_pySpace (l : List Char)
    (h : ∀ c ∈ l, c = '0' ∨ c = '1' ∨ c = ' ') :
    (l.dropWhile isPySpace).filter (fun c => c ≠ ' ') =
      l.filter (fun c => c ≠ ' ') := by
  induction l with
  | nil => rfl
  | cons a l ih =>
    by_cases ha : isPySpace a
    · have ha' : a = ' ' := by
        rcases h a (by simp) with h0 | h0 | h0 <;> first
          | (subst h0; rfl)
          | (subst h0; simp [isPySpace] at ha)
      rw [List.dropWhile_cons_of_pos ha, ih (fun c hc => h c (by simp [hc]))]
      subst ha'
      simp
    · rw [List.dropWhile_cons_of_neg ha]

/-- On a line of '0', '1' and ' ' characters, the decoder's normalisation
`line.strip().replace(' ', '')` is just space removal. -/
theorem preprocess_eq_filter (l : List Char)
    (h : ∀ c ∈ l, c = '0' ∨ c = '1' ∨ c = ' ') :
    preprocess l = l.filter (fun c => c ≠ ' ') := by
  have hsub1 : ∀ c ∈ l.dropWhile isPySpace, c = '0' ∨ c = '1' ∨ c = ' ' :=
    fun c hc => h c (List.dropWhile_sublist isPySpace |>.mem hc)
  have hsub2 : ∀ c ∈ (l.dropWhile isPySpace).reverse, c = '0' ∨ c = '1' ∨ c = ' ' :=
    fun c hc => hsub1 c (List.mem_reverse.mp hc)
  rw [preprocess, pyStrip, List.filter_reverse,
    filter_dropWhile_pySpace _ hsub2, List.filter_reverse, List.reverse_reverse,
    filter_dropWhile_pySpace _ h]

/-- A list with no whitespace characters is unchanged by `strip()`. -/
theorem pyStrip_eq_self (l : List Char) (h : ∀ c ∈ l, isPySpace c = false) :
    pyStrip l = l := by
  have hd : ∀ (m : List Char), (∀ c ∈ m, isPySpace c = false) →
      m.dropWhile isPySpace = m := by
    intro m hm
    cases m with
    | nil => rfl
    | cons a m => exact List.dropWhile_cons_of_neg (by simp [hm a (by simp)])
  rw [pyStrip, hd l h, hd _ (fun c hc => h c (List.mem_reverse.mp hc)),
    List.reverse_reverse]

theorem filter_joinSep_space (gs : List (List Char))
    (h : ∀ g ∈ gs, ∀ c ∈ g, c ≠ ' ') (sep : List Char)
    (hsep : sep.filter (fun c => c ≠ ' ') = []) :
    (joinSep sep gs).filter (fun c => c ≠ ' ') = gs.flatten := by
  induction gs with
  | nil => rfl
  | cons g gs ih =>
    have hg : g.filter (fun c => c ≠ ' ') = g :=
      List.filter_eq_self.mpr (by intro c hc; simpa using h g (by simp) c hc)
    cases gs with
    | nil => simpa [joinSep] using hg
    | cons g2 gs2 =>
      show (g ++ sep ++ joinSep sep (g2 :: gs2)).filter _ = _
      rw [List.filter_append, List.filter_append, hg, hsep,
        ih (fun g hg => h g (List.mem_cons_of_mem _ hg))]
      simp

theorem mem_joinSep (sep : List Char) (gs : List (List Char)) :
    ∀ ch ∈ joinSep sep gs, ch ∈ sep ∨ ∃ g ∈ gs, ch ∈ g := by
  induction gs with
  | nil => intro ch hch; simp [joinSep] at hch
  | cons g gs ih =>
    intro ch hch
    cases gs with
    | nil =>
      right
      exact ⟨g, by simp, hch⟩
    | cons g2 gs2 =>
      replace hch : ch ∈ g ++ sep ++ joinSep sep (g2 :: gs2) := hch
      simp only [List.mem_append] at hch
      rcases hch with (hch | hch) | hch
      · exact Or.inr ⟨g, by simp, hch⟩
      · exact Or.inl hch
      · rcases ih ch hch with h | ⟨g3, hg3, hin⟩
        · exact Or.inl h
        · exact Or.inr ⟨g3, List.mem_cons_of_mem _ hg3, hin⟩

/-- Normalising an encoder-produced line recovers the concatenation of its
groups, spaced or not: the separator is purely cosmetic. -/
theorem preprocess_joinSep (spacing : Bool) (gs : List (List Char))
    (h : ∀ g ∈ gs, ∀ c ∈ g, c = '0' ∨ c = '1') :
    preprocess (joinSep (if spacing then [' '] else []) gs) = gs.flatten := by
  set sep : List Char := if spacing then [' '] else [] with hsep
  have hmem : ∀ ch ∈ joinSep sep gs, ch = '0' ∨ ch = '1' ∨ ch = ' ' := by
    intro ch hch
    rcases mem_joinSep sep gs ch hch with hch | ⟨g, hg, hin⟩
    · right; right
      rw [hsep] at hch
      cases spacing <;> simp_all
    · rcases h g hg ch hin with h0 | h0 <;> simp [h0]
  rw [preprocess_eq_filter _ hmem]
  apply filter_joinSep_space
  · intro g hg c hc
    rcases h g hg c hc with h0 | h0 <;> simp [h0]
  · rw [hsep]
    cases spacing <;> rfl

theorem all01_flatten (gs : List (List Char))
    (h : ∀ g ∈ gs, ∀ c ∈ g, c = '0' ∨ c = '1') : all01 gs.flatten = true := by
  rw [all01, List.all_eq_true]
  intro c hc
  rcases List.mem_flatten.mp hc with ⟨g, hg, hin⟩
  rcases h g hg c hin with h0 | h0 <;> simp [h0]

theorem decodeGroups_formatBin (w : Nat) (hw : 1 ≤ w) (vals : List Nat)
    (hv : ∀ v ∈ vals, v < 2 ^ w) :
    decodeGroups w (vals.map (formatBin w)) = (vals, []) := by
  induction vals with
  | nil => rfl
  | cons v vals ih =>
    simp only [List.map_cons, decodeGroups]
    rw [process_binary_chunk_formatBin w v hw (hv v (by simp)),
      ih (fun v h => hv v (List.mem_cons_of_mem _ h))]
    simp

/-- A line produced by the Plain encoder decodes to its chunk's bytes with no
diagnostics. -/
theorem deconvertLine_encoded (spacing : Bool) (c : List Nat)
    (hc : ∀ b ∈ c, b < 256) :
    deconvertLine (joinSep (if spacing then [' '] else []) (c.map (formatBin 8)))
      = (c, []) := by
  have hgs : ∀ g ∈ c.map (formatBin 8), ∀ ch ∈ g, ch = '0' ∨ ch = '1' := by
    intro g hg ch hch
    rcases List.mem_map.mp hg with ⟨b, _, hb⟩
    subst hb
    have := formatBin_all01 8 b
    rw [all01, List.all_eq_true] at this
    have := this ch hch
    rcases Bool.or_eq_true_iff.mp this with h0 | h0
    · left; exact eq_of_beq h0
    · right; exact eq_of_beq h0
  have hlen : ∀ g ∈ c.map (formatBin 8), g.length = 8 := by
    intro g hg
    rcases List.mem_map.mp hg with ⟨b, hb, hb'⟩
    subst hb'
    exact formatBin_length 8 b (by omega) (by have := hc b hb; omega)
  rw [deconvertLine, preprocess_joinSep spacing _ hgs]
  rw [if_neg (by simp [all01_flatten _ hgs])]
  rw [flatten_groups_length 8 _ hlen]
  rw [chunks_flatten_groups 8 (by omega) _ hlen]
  rw [decodeGroups_formatBin 8 (by omega) c (fun v hv => by have := hc v hv; omega)]
  simp [Nat.mul_mod_right]

theorem deconvert_file_to_binary (spacing : Bool) (n : Nat) (hn : 0 < n)
    (B : List Nat) (hB : ∀ b ∈ B, b < 256) :
    deconvert_binary (file_to_binary spacing n B) = (B, []) := by
  rw [file_to_binary]
  have key : ∀ cs : List (List Nat), (∀ c ∈ cs, ∀ b ∈ c, b < 256) →
      deconvert_binary (cs.map
        (fun c => joinSep (if spacing then [' '] else []) (c.map (formatBin 8))))
        = (cs.flatten, []) := by
    intro cs hcs
    induction cs with
    | nil => rfl
    | cons c cs ih =>
      simp only [List.map_cons, deconvert_binary, List.flatten_cons]
      rw [deconvertLine_encoded spacing c (hcs c (by simp)),
        ih (fun c hc => hcs c (List.mem_cons_of_mem _ hc))]
      simp
  rw [key (chunks n B) (fun c hc b hb => hB b ((chunks_mem_props n hn B c hc).2 b hb))]
  rw [chunks_flatten n hn B]

/-! ## Decrypt on well-formed input -/

theorem split_byte_fst (b : Nat) : (split_byte b).1 = formatBin 7 (b >>> 1) := rfl

theorem split_byte_snd (b : Nat) : (split_byte b).2 = bitChar (b &&& 1) := rfl

theorem shiftRight_one_lt (b : Nat) (hb : b < 256) : b >>> 1 < 2 ^ 7 := by
  rw [Nat.shiftRight_one]
  omega

theorem keyChar_01 (b : Nat) : (split_byte b).2 = '0' ∨ (split_byte b).2 = '1' := by
  rw [split_byte_snd, Nat.and_one_is_mod]
  rcases Nat.mod_two_eq_zero_or_one b with h | h <;> simp [h, bitChar]

theorem pyIntDigit_keyChar (b : Nat) : pyIntDigit (split_byte b).2 = some (b &&& 1) := by
  rw [split_byte_snd, Nat.and_one_is_mod]
  rcases Nat.mod_two_eq_zero_or_one b with h | h <;> rw [h] <;> decide

theorem payloadGroup_all01 (b : Nat) :
    ∀ c ∈ (split_byte b).1, c = '0' ∨ c = '1' := by
  rw [split_byte_fst]
  intro c hc
  have := formatBin_all01 7 (b >>> 1)
  rw [all01, List.all_eq_true] at this
  have := this c hc
  rcases Bool.or_eq_true_iff.mp this with h0 | h0
  · left; exact eq_of_beq h0
  · right; exact eq_of_beq h0

theorem payloadGroup_length (b : Nat) (hb : b < 256) :
    ((split_byte b).1).length = 7 := by
  rw [split_byte_fst]
  exact formatBin_length 7 _ (by omega) (shiftRight_one_lt b hb)

/-- The group loop of `decrypt` on an encoder-produced line whose key bits
head the unconsumed key stream: every byte of the chunk is reassembled, no
diagnostic is produced, and exactly one key bit is consumed per byte. -/
theorem decryptGroups_encoded (c : List Nat) (hc : ∀ b ∈ c, b < 256)
    (keyBits : List Char) (ki : Nat) (suffix : List Char)
    (hkey : keyBits.drop ki = c.map (fun b => (split_byte b).2) ++ suffix) :
    decryptGroups keyBits ki (c.map (fun b => (split_byte b).1)) =
      some (c, [], ki + c.length) := by
  induction c generalizing ki with
  | nil => simp [decryptGroups]
  | cons b c ih =>
    have hki : ki < keyBits.length := by
      by_contra hcon
      have : keyBits.drop ki = [] := List.drop_eq_nil_of_le (by omega)
      rw [this] at hkey
      simp at hkey
    simp only [List.map_cons, decryptGroups]
    rw [if_neg (by omega)]
    rw [split_byte_fst, process_binary_chunk_formatBin 7 _ (by omega)
      (shiftRight_one_lt b (hc b (by simp)))]
    have hget : keyBits.getD ki ' ' = (split_byte b).2 := by
      have h0 : keyBits[ki]? = (keyBits.drop ki)[0]? := by
        simp [List.getElem?_drop]
      rw [hkey] at h0
      simp only [List.map_cons, List.cons_append, List.getElem?_cons_zero] at h0
      simp [List.getD, h0]
    rw [hget, pyIntDigit_keyChar]
    have hdrop : keyBits.drop (ki + 1) = c.map (fun b => (split_byte b).2) ++ suffix := by
      have : keyBits.drop (ki + 1) = (keyBits.drop ki).drop 1 := by
        rw [List.drop_drop]
      rw [this, hkey]
      simp
    rw [ih (fun b h => hc b (List.mem_cons_of_mem _ h)) (ki + 1) hdrop]
    simp only [shift_join, Option.some.injEq, Prod.mk.injEq, List.length_cons]
    refine ⟨trivial, trivial, by omega⟩

/-- One encoder-produced payload line decrypts to its chunk, with no
diagnostics, advancing the key index by the chunk length. -/
theorem decryptLine_encoded (spacing : Bool) (c : List Nat)
    (hc : ∀ b ∈ c, b < 256) (keyBits : List Char) (ki : Nat) (suffix : List Char)
    (hkey : keyBits.drop ki = c.map (fun b => (split_byte b).2) ++ suffix) :
    decryptLine keyBits ki
      (joinSep (if spacing then [' '] else []) (c.map (fun b => (split_byte b).1)))
      = some (c, [], ki + c.length) := by
  have hgs : ∀ g ∈ c.map (fun b => (split_byte b).1), ∀ ch ∈ g, ch = '0' ∨ ch = '1' := by
    intro g hg ch hch
    rcases List.mem_map.mp hg with ⟨b, _, hb⟩
    subst hb
    exact payloadGroup_all01 b ch hch
  have hlen : ∀ g ∈ c.map (fun b => (split_byte b).1), g.length = 7 := by
    intro g hg
    rcases List.mem_map.mp hg with ⟨b, hb, hb'⟩
    subst hb'
    exact payloadGroup_length b (hc b hb)
  rw [decryptLine, preprocess_joinSep spacing _ hgs]
  rw [if_neg (by simp [all01_flatten _ hgs])]
  rw [chunks_flatten_groups 7 (by omega) _ hlen]
  rw [decryptGroups_encoded c hc keyBits ki suffix hkey]
  rw [flatten_groups_length 7 _ hlen]
  simp [Nat.mul_mod_right]

/-- The line loop of `decrypt` over the whole encoded file, in lock-step with
the key stream. -/
theorem decryptLines_encoded (spacing : Bool) (cs : List (List Nat))
    (hcs : ∀ c ∈ cs, ∀ b ∈ c, b < 256) (keyBits : List Char) (ki : Nat)
    (hkey : keyBits.drop ki = (cs.map (fun c => c.map (fun b => (split_byte b).2))).flatten) :
    decryptLines keyBits ki
      (cs.map (fun c => joinSep (if spacing then [' '] else [])
        (c.map (fun b => (split_byte b).1))))
      = some (cs.flatten, [], ki + cs.flatten.length) := by
  induction cs generalizing ki with
  | nil => simp [decryptLines]
  | cons c cs ih =>
    simp only [List.map_cons, List.flatten_cons, decryptLines]
    rw [decryptLine_encoded spacing c (hcs c (by simp)) keyBits ki
      (cs.map (fun c => c.map (fun b => (split_byte b).2))).flatten
      (by rw [hkey]; simp)]
    have hdrop : keyBits.drop (ki + c.length) =
        (cs.map (fun c => c.map (fun b => (split_byte b).2))).flatten := by
      have h1 : keyBits.drop (ki + c.length) = (keyBits.drop ki).drop c.length := by
        rw [List.drop_drop, Nat.add_comm]
      rw [h1, hkey]
      simp only [List.map_cons, List.flatten_cons]
      exact List.drop_left' (by simp)
    simp only []
    rw [ih (fun c hc => hcs c (List.mem_cons_of_mem _ hc)) (ki + c.length) hdrop]
    simp only [Option.some.injEq, Prod.mk.injEq, List.length_append,
      List.nil_append]
    exact ⟨trivial, trivial, by omega⟩

/-- Key lines contain only '0'/'1', so `line.strip()` leaves them unchanged
and the materialised key stream is exactly the encoder's key characters. -/
theorem keyStream_encrypt (n : Nat) (B : List Nat) :
    keyStream ((chunks n B).map (fun c => c.map (fun b => (split_byte b).2))) =
      ((chunks n B).map (fun c => c.map (fun b => (split_byte b).2))).flatten := by
  rw [keyStream]
  congr 1
  rw [List.map_map]
  apply List.map_congr_left
  intro c _
  simp only [Function.comp_apply]
  apply pyStrip_eq_self
  intro ch hch
  rcases List.mem_map.mp hch with ⟨b, _, hb⟩
  subst hb
  rcases keyChar_01 b with h0 | h0 <;> simp [h0, isPySpace]

/-! ## Per-unit behaviour of the decoders -/

theorem process_binary_chunk_valid (g : List Char) (w : Nat) (hl : g.length = w)
    (h01 : all01 g = true) :
    process_binary_chunk g w = (some (parseBits g), none) := by
  rw [process_binary_chunk, if_neg (by omega), if_neg (by simp [h01])]

theorem decodeGroups_append (w : Nat) (gs1 gs2 : List (List Char)) :
    decodeGroups w (gs1 ++ gs2) =
      ((decodeGroups w gs1).1 ++ (decodeGroups w gs2).1,
       (decodeGroups w gs1).2 ++ (decodeGroups w gs2).2) := by
  induction gs1 with
  | nil => simp [decodeGroups]
  | cons g gs1 ih => simp [decodeGroups, ih]

theorem decodeGroups_full (w : Nat) (gs : List (List Char))
    (h : ∀ g ∈ gs, g.length = w ∧ all01 g = true) :
    decodeGroups w gs = (gs.map parseBits, []) := by
  induction gs with
  | nil => rfl
  | cons g gs ih =>
    have hg := h g (by simp)
    simp only [decodeGroups, List.map_cons]
    rw [process_binary_chunk_valid g w hg.1 hg.2,
      ih (fun g hg => h g (List.mem_cons_of_mem _ hg))]
    simp

theorem chunks_full_lengths (w : Nat) (hw : 0 < w) (s : List α)
    (hmod : s.length % w = 0) : ∀ g ∈ chunks w s, g.length = w := by
  have key : ∀ (k : Nat) (s : List α), s.length ≤ k → s.length % w = 0 →
      ∀ g ∈ chunks w s, g.length = w := by
    intro k
    induction k with
    | zero =>
      intro s hs _ g hg
      have : s = [] := List.length_eq_zero.mp (by omega)
      rw [this, chunks_nil] at hg
      simp at hg
    | succ k ih =>
      intro s hs hmod g hg
      by_cases hne : s = []
      · rw [hne, chunks_nil] at hg
        simp at hg
      · have hpos : 0 < s.length := List.length_pos.mpr hne
        have hge : w ≤ s.length := by
          by_contra hc
          rw [Nat.mod_eq_of_lt (by omega)] at hmod
          omega
        rw [chunks_cons w s hne hw] at hg
        rcases List.mem_cons.mp hg with hg | hg
        · rw [hg, List.length_take]
          omega
        · exact ih (s.drop w) (by simp [List.length_drop]; omega)
            (by rw [List.length_drop, ← Nat.mod_eq_sub_mod hge]; exact hmod) g hg
  exact key s.length s le_rfl hmod

/-- When a list's length is not a multiple of `w`, the group loop sees all
full-width prefix groups followed by the one short trailing group. -/
theorem chunks_split_last (w : Nat) (hw : 0 < w) (s : List α)
    (h : s.length % w ≠ 0) :
    chunks w s = chunks w (s.take (w * (s.length / w))) ++
      [s.drop (w * (s.length / w))] := by
  have key : ∀ (k : Nat) (s : List α), s.length ≤ k → s.length % w ≠ 0 →
      chunks w s = chunks w (s.take (w * (s.length / w))) ++
        [s.drop (w * (s.length / w))] := by
    intro k
    induction k with
    | zero =>
      intro s hs hmod
      have : s = [] := List.length_eq_zero.mp (by omega)
      subst this
      simp at hmod
    | succ k ih =>
      intro s hs hmod
      have hne : s ≠ [] := by
        intro hc
        subst hc
        simp at hmod
      by_cases hlt : s.length < w
      · have hdiv : s.length / w = 0 := Nat.div_eq_of_lt hlt
        rw [hdiv, Nat.mul_zero, List.take_zero, List.drop_zero, chunks_nil,
          chunks_cons w s hne hw, List.take_of_length_le (by omega),
          List.drop_eq_nil_of_le (by omega), chunks_nil]
        simp
      · push_neg at hlt
        have hq : w * (s.length / w) = w + w * ((s.length - w) / w) := by
          rw [Nat.div_eq_sub_div hw hlt]
          ring
        have hwq : w ≤ w * (s.length / w) := by
          rw [hq]
          omega
        have htne : s.take (w * (s.length / w)) ≠ [] := by
          rw [Ne, List.take_eq_nil_iff]
          push_neg
          exact ⟨by omega, hne⟩
        rw [chunks_cons w s hne hw, chunks_cons w _ htne hw, List.take_take,
          min_eq_left hwq, List.drop_take]
        have hqw : w * (s.length / w) - w = w * ((s.length - w) / w) := by
          rw [hq]
          omega
        rw [hqw]
        have hdl : (s.drop w).length = s.length - w := by simp
        have hdm : (s.drop w).length % w ≠ 0 := by
          rw [hdl, ← Nat.mod_eq_sub_mod hlt]
          exact hmod
        have hrec := ih (s.drop w) (by rw [hdl]; omega) hdm
        rw [hdl] at hrec
        rw [hrec, List.drop_drop, ← hq]
        simp
  exact key s.length s le_rfl h

/-- The key index advances exactly when a byte is appended (group loop). -/
theorem decryptGroups_key_index (keyBits : List Char) (gs : List (List Char)) :
    ∀ ki ts ds kf, decryptGroups keyBits ki gs = some (ts, ds, kf) →
      kf = ki + ts.length := by
  induction gs with
  | nil =>
    intro ki ts ds kf h
    simp only [decryptGroups, Option.some.injEq, Prod.mk.injEq] at h
    simp [← h.1, ← h.2.2]
  | cons g gs ih =>
    intro ki ts ds kf h
    rw [decryptGroups] at h
    by_cases hki : keyBits.length ≤ ki
    · rw [if_pos hki] at h
      simp only [Option.some.injEq, Prod.mk.injEq] at h
      simp [← h.1, ← h.2.2]
    · rw [if_neg hki] at h
      rcases hpc : process_binary_chunk g 7 with ⟨o, e⟩
      rw [hpc] at h
      cases o with
      | some seven =>
        simp only [] at h
        rcases hd : pyIntDigit (keyBits.getD ki ' ') with _ | lb
        · rw [hd] at h
          simp at h
        · rw [hd] at h
          rcases hrec : decryptGroups keyBits (ki + 1) gs with _ | ⟨ts1, ds1, kf1⟩
          · rw [hrec] at h
            simp at h
          · rw [hrec] at h
            simp only [Option.some.injEq, Prod.mk.injEq] at h
            have := ih (ki + 1) ts1 ds1 kf1 hrec
            rw [← h.1, ← h.2.2]
            simp only [List.length_cons]
            omega
      | none =>
        simp only [] at h
        rcases hrec : decryptGroups keyBits ki gs with _ | ⟨ts1, ds1, kf1⟩
        · rw [hrec] at h
          simp at h
        · rw [hrec] at h
          simp only [Option.some.injEq, Prod.mk.injEq] at h
          have := ih ki ts1 ds1 kf1 hrec
          rw [← h.1, ← h.2.2]
          omega

/-- The key index advances exactly when a byte is appended (one line). -/
theorem decryptLine_key_index (keyBits : List Char) (L : List Char) :
    ∀ ki ts ds kf, decryptLine keyBits ki L = some (ts, ds, kf) →
      kf = ki + ts.length := by
  intro ki ts ds kf h
  rw [decryptLine] at h
  by_cases h01 : all01 (preprocess L)
  · rw [if_neg (by simp [h01])] at h
    rcases hrec : decryptGroups keyBits ki (chunks 7 (preprocess L)) with _ | ⟨ts1, ds1, kf1⟩
    · rw [hrec] at h
      simp at h
    · rw [hrec] at h
      simp only [Option.some.injEq, Prod.mk.injEq] at h
      have := decryptGroups_key_index keyBits _ ki ts1 ds1 kf1 hrec
      rw [← h.1, ← h.2.2]
      omega
  · rw [if_pos (by simpa using h01)] at h
    simp only [Option.some.injEq, Prod.mk.injEq] at h
    simp [← h.1, ← h.2.2]

/-- The key index advances exactly when a byte is appended (whole pass). -/
theorem decryptLines_key_index (keyBits : List Char) (Ls : List (List Char)) :
    ∀ ki ts ds kf, decryptLines keyBits ki Ls = some (ts, ds, kf) →
      kf = ki + ts.length := by
  induction Ls with
  | nil =>
    intro ki ts ds kf h
    simp only [decryptLines, Option.some.injEq, Prod.mk.injEq] at h
    simp [← h.1, ← h.2.2]
  | cons L Ls ih =>
    intro ki ts ds kf h
    rw [decryptLines] at h
    rcases h1 : decryptLine keyBits ki L with _ | ⟨ts1, ds1, k2⟩
    · rw [h1] at h
      simp at h
    · rw [h1] at h
      simp only [] at h
      rcases h2 : decryptLines keyBits k2 Ls with _ | ⟨ts2, ds2, kf2⟩
      · rw [h2] at h
        simp at h
      · rw [h2] at h
        simp only [Option.some.injEq, Prod.mk.injEq] at h
        have e1 := decryptLine_key_index keyBits L ki ts1 ds1 k2 h1
        have e2 := ih k2 ts2 ds2 kf2 h2
        rw [← h.1, ← h.2.2]
        simp only [List.length_append]
        omega

/-! ## Claim theorems -/

/-- C1: for every byte sequence `B`, splitting `B` with `encrypt` into a
payload stream of 7-bit groups and a key stream of 1-bit characters and then
decrypting that payload with that key stream reconstructs exactly `B`,
bit-exact, in the original order (and with no diagnostics). -/
theorem claim1_roundtrip_split (B : List Nat) (spacing : Bool) (n : Nat)
    (hn : 0 < n) (hB : ∀ b ∈ B, b < 256) :
    decrypt (encrypt spacing n B).1 (encrypt spacing n B).2 = some (B, []) := by
  have hcs : ∀ c ∈ chunks n B, ∀ b ∈ c, b < 256 :=
    fun c hc b hb => hB b ((chunks_mem_props n hn B c hc).2 b hb)
  unfold decrypt encrypt
  rw [decryptLines_encoded spacing (chunks n B) hcs _ 0
    (by rw [List.drop_zero]; exact keyStream_encrypt n B)]
  simp only []
  rw [chunks_flatten n hn B]

theorem claim1_roundtrip_split_witness :
    0 < 4096 ∧ (∀ b ∈ [65, 66, 255, 0], b < 256) ∧
      decrypt (encrypt true 4096 [65, 66, 255, 0]).1
        (encrypt true 4096 [65, 66, 255, 0]).2 = some ([65, 66, 255, 0], []) :=
  ⟨by decide, by decide,
    claim1_roundtrip_split [65, 66, 255, 0] true 4096 (by decide) (by decide)⟩

/-- C2: for every byte sequence `B`, encoding `B` in Plain mode (each byte an
8-character zero-padded MSB-first binary string, one line per chunk) and then
decoding the resulting text reconstructs exactly `B`, bit-exact, in the
original order (and with no diagnostics). -/
theorem claim2_roundtrip_plain (B : List Nat) (spacing : Bool) (n : Nat)
    (hn : 0 < n) (hB : ∀ b ∈ B, b < 256) :
    deconvert_binary (file_to_binary spacing n B) = (B, []) :=
  deconvert_file_to_binary spacing n hn B hB

theorem claim2_roundtrip_plain_witness :
    0 < 4096 ∧ (∀ b ∈ [65, 0, 255], b < 256) ∧
      deconvert_binary (file_to_binary true 4096 [65, 0, 255]) = ([65, 0, 255], []) :=
  ⟨by decide, by decide,
    claim2_roundtrip_plain [65, 0, 255] true 4096 (by decide) (by decide)⟩

/-- C3: for every byte `b < 256`, `_split_byte` produces a 7-character
payload that parses back to `b >> 1` together with the key bit `b & 1`
(readable by `int(_)` as the decoder does), and reassembly
`(payload << 1) | keyBit` recovers `b`: the split is lossless. -/
theorem claim3_split_byte_bijection (b : Nat) (hb : b < 256) :
    ((split_byte b).1).length = 7 ∧
    parseBits ((split_byte b).1) = b >>> 1 ∧
    pyIntDigit ((split_byte b).2) = some (b &&& 1) ∧
    ((parseBits ((split_byte b).1)) <<< 1) ||| (b &&& 1) = b := by
  refine ⟨payloadGroup_length b hb, ?_, pyIntDigit_keyChar b, ?_⟩
  · rw [split_byte_fst, parseBits_formatBin]
  · rw [split_byte_fst, parseBits_formatBin, shift_join]

theorem claim3_split_byte_bijection_witness :
    (65 : Nat) < 256 ∧
      (((split_byte 65).1).length = 7 ∧
       parseBits ((split_byte 65).1) = 65 >>> 1 ∧
       pyIntDigit ((split_byte 65).2) = some (65 &&& 1) ∧
       ((parseBits ((split_byte 65).1)) <<< 1) ||| (65 &&& 1) = 65) :=
  ⟨by decide, claim3_split_byte_bijection 65 (by decide)⟩

/-- C7: a decoded line that, after space removal, contains a character other
than '0'/'1' yields exactly one Diagnostic and zero bytes — the line is
skipped entirely with no partial reconstruction — and processing continues
with the next line; this holds for both the plain decoder and decrypt. -/
theorem claim7_invalid_char_line (L : List Char)
    (h : all01 (preprocess L) = false) :
    deconvertLine L = ([], [Diag.invalidCharLine (pyStrip L)]) ∧
    (∀ keyBits ki, decryptLine keyBits ki L =
      some ([], [Diag.invalidCharLine (pyStrip L)], ki)) ∧
    (∀ rest, deconvert_binary (L :: rest) =
      ((deconvert_binary rest).1,
       Diag.invalidCharLine (pyStrip L) :: (deconvert_binary rest).2)) ∧
    (∀ keyBits ki Ls, decryptLines keyBits ki (L :: Ls) =
      (decryptLines keyBits ki Ls).map
        (fun r => (r.1, Diag.invalidCharLine (pyStrip L) :: r.2.1, r.2.2))) := by
  have hline : deconvertLine L = ([], [Diag.invalidCharLine (pyStrip L)]) := by
    rw [deconvertLine, if_pos (by simp [h])]
  have hdline : ∀ keyBits ki, decryptLine keyBits ki L =
      some ([], [Diag.invalidCharLine (pyStrip L)], ki) := by
    intro keyBits ki
    rw [decryptLine, if_pos (by simp [h])]
  refine ⟨hline, hdline, ?_, ?_⟩
  · intro rest
    simp only [deconvert_binary, hline]
    simp
  · intro keyBits ki Ls
    rw [decryptLines, hdline keyBits ki]
    rcases h2 : decryptLines keyBits ki Ls with _ | ⟨ts2, ds2, kf2⟩ <;> simp [h2]

theorem claim7_invalid_char_line_witness :
    all01 (preprocess ("0100000x".toList)) = false ∧
      deconvertLine ("0100000x".toList) =
        ([], [Diag.invalidCharLine (pyStrip ("0100000x".toList))]) :=
  ⟨by decide, (claim7_invalid_char_line ("0100000x".toList) (by decide)).1⟩

/-- C9: invariant of every decrypt pass — whenever the group loop or the line
loop completes without aborting, the final key index equals the starting key
index plus the number of bytes appended: the index advances exactly when a
byte is produced, so skipped or malformed groups consume no key bit. -/
theorem claim9_key_index_invariant :
    (∀ (keyBits : List Char) (gs : List (List Char)) ki ts ds kf,
      decryptGroups keyBits ki gs = some (ts, ds, kf) → kf = ki + ts.length) ∧
    (∀ (keyBits : List Char) (Ls : List (List Char)) ki ts ds kf,
      decryptLines keyBits ki Ls = some (ts, ds, kf) → kf = ki + ts.length) :=
  ⟨fun keyBits gs => decryptGroups_key_index keyBits gs,
   fun keyBits Ls => decryptLines_key_index keyBits Ls⟩

theorem claim9_key_index_invariant_witness :
    (2 : Nat) = 0 + ([64, 67] : List Nat).length :=
  claim9_key_index_invariant.2 ['0', '1'] ["0100000 0100001".toList] 0
    [64, 67] [] 2
    (by simp [decryptLines, decryptLine, decryptGroups, preprocess, pyStrip,
      isPySpace, all01, chunks, process_binary_chunk, parseBits, pyIntDigit])

/-- C6: a decoded line of '0'/'1' characters (after space removal) whose
length is not a multiple of the width 8 produces one diagnostic for the
length defect, still decodes every full-width prefix group, and reports and
skips the trailing short group as a separate diagnostic. -/
theorem claim6_malformed_width (L : List Char)
    (h01 : all01 (preprocess L) = true)
    (hlen : (preprocess L).length % 8 ≠ 0) :
    deconvertLine L =
      ((chunks 8 ((preprocess L).take (8 * ((preprocess L).length / 8)))).map parseBits,
       [Diag.incompleteLen (pyStrip L),
        Diag.skippedIncomplete ((preprocess L).drop (8 * ((preprocess L).length / 8)))]) := by
  have hq_le : 8 * ((preprocess L).length / 8) ≤ (preprocess L).length := by
    rw [Nat.mul_comm]
    exact Nat.div_mul_le_self _ 8
  have hlen_take : ((preprocess L).take (8 * ((preprocess L).length / 8))).length
      = 8 * ((preprocess L).length / 8) := by
    rw [List.length_take]
    omega
  have hfull : ∀ g ∈ chunks 8 ((preprocess L).take (8 * ((preprocess L).length / 8))),
      g.length = 8 ∧ all01 g = true := by
    intro g hg
    refine ⟨chunks_full_lengths 8 (by omega) _
      (by rw [hlen_take]; exact Nat.mul_mod_right 8 _) g hg, ?_⟩
    rw [all01, List.all_eq_true]
    intro c hc
    have hc2 : c ∈ preprocess L :=
      List.take_subset _ _ ((chunks_mem_props 8 (by omega) _ g hg).2 c hc)
    rw [all01, List.all_eq_true] at h01
    exact h01 c hc2
  have hshortlen : ((preprocess L).drop (8 * ((preprocess L).length / 8))).length
      = (preprocess L).length % 8 := by
    rw [List.length_drop]
    have := Nat.div_add_mod (preprocess L).length 8
    omega
  have hshort : decodeGroups 8 [(preprocess L).drop (8 * ((preprocess L).length / 8))]
      = ([], [Diag.skippedIncomplete
          ((preprocess L).drop (8 * ((preprocess L).length / 8)))]) := by
    have hne8 : ((preprocess L).drop (8 * ((preprocess L).length / 8))).length ≠ 8 := by
      rw [hshortlen]
      have : (preprocess L).length % 8 < 8 := Nat.mod_lt _ (by omega)
      omega
    simp only [decodeGroups]
    rw [process_binary_chunk, if_pos hne8]
    simp [decodeGroups]
  simp only [deconvertLine]
  rw [if_neg (by simp [h01])]
  rw [chunks_split_last 8 (by omega) (preprocess L) hlen, decodeGroups_append,
    decodeGroups_full 8 _ hfull, hshort, if_pos hlen]
  simp

theorem claim6_malformed_width_witness :
    all01 (preprocess ("010000010".toList)) = true ∧
      (preprocess ("010000010".toList)).length % 8 ≠ 0 ∧
      deconvertLine ("010000010".toList) =
        ((chunks 8 ((preprocess ("010000010".toList)).take
            (8 * ((preprocess ("010000010".toList)).length / 8)))).map parseBits,
         [Diag.incompleteLen (pyStrip ("010000010".toList)),
          Diag.skippedIncomplete ((preprocess ("010000010".toList)).drop
            (8 * ((preprocess ("010000010".toList)).length / 8)))]) :=
  ⟨by decide, by decide,
    claim6_malformed_width ("010000010".toList) (by decide) (by decide)⟩

/-- C8: the two `encrypt` outputs are chunk-synchronized: they have one line
per chunk each, and for every line index `i`, the key line is the
concatenation of exactly one '0'/'1' character per byte of chunk `i`, while
the payload line at the same index holds exactly that many 7-bit groups. -/
theorem claim8_chunk_sync (B : List Nat) (spacing : Bool) (n : Nat)
    (hn : 0 < n) (hB : ∀ b ∈ B, b < 256) :
    (encrypt spacing n B).1.length = (encrypt spacing n B).2.length ∧
    ∀ i, i < (encrypt spacing n B).2.length →
      ∃ pl kl c, (encrypt spacing n B).1[i]? = some pl ∧
        (encrypt spacing n B).2[i]? = some kl ∧
        (chunks n B)[i]? = some c ∧
        kl = c.map (fun b => (split_byte b).2) ∧
        kl.length = c.length ∧
        (∀ ch ∈ kl, ch = '0' ∨ ch = '1') ∧
        (chunks 7 (preprocess pl)).length = kl.length := by
  constructor
  · simp [encrypt]
  · intro i hi
    have hi' : i < (chunks n B).length := by
      simpa [encrypt] using hi
    obtain ⟨c, hc⟩ : ∃ c, (chunks n B)[i]? = some c :=
      ⟨(chunks n B)[i], List.getElem?_eq_getElem hi'⟩
    have hcmem : c ∈ chunks n B := List.getElem?_mem hc
    have hcB : ∀ b ∈ c, b < 256 :=
      fun b hb => hB b ((chunks_mem_props n hn B c hcmem).2 b hb)
    have hgs : ∀ g ∈ c.map (fun b => (split_byte b).1), ∀ ch ∈ g, ch = '0' ∨ ch = '1' := by
      intro g hg ch hch
      rcases List.mem_map.mp hg with ⟨b, _, hb⟩
      subst hb
      exact payloadGroup_all01 b ch hch
    have hlen7 : ∀ g ∈ c.map (fun b => (split_byte b).1), g.length = 7 := by
      intro g hg
      rcases List.mem_map.mp hg with ⟨b, hb, hb'⟩
      subst hb'
      exact payloadGroup_length b (hcB b hb)
    refine ⟨joinSep (if spacing then [' '] else []) (c.map (fun b => (split_byte b).1)),
      c.map (fun b => (split_byte b).2), c, ?_, ?_, hc, rfl, by simp, ?_, ?_⟩
    · rw [encrypt]
      simp only [List.getElem?_map, hc]
      rfl
    · rw [encrypt]
      simp only [List.getElem?_map, hc]
      rfl
    · intro ch hch
      rcases List.mem_map.mp hch with ⟨b, _, hb⟩
      subst hb
      exact keyChar_01 b
    · rw [preprocess_joinSep spacing _ hgs, chunks_flatten_groups 7 (by omega) _ hlen7]
      simp

theorem claim8_chunk_sync_witness :
    0 < 2 ∧ (∀ b ∈ [65, 66, 255], b < 256) ∧
      ((encrypt true 2 [65, 66, 255]).1.length = (encrypt true 2 [65, 66, 255]).2.length ∧
       ∀ i, i < (encrypt true 2 [65, 66, 255]).2.length →
        ∃ pl kl c, (encrypt true 2 [65, 66, 255]).1[i]? = some pl ∧
          (encrypt true 2 [65, 66, 255]).2[i]? = some kl ∧
          (chunks 2 [65, 66, 255])[i]? = some c ∧
          kl = c.map (fun b => (split_byte b).2) ∧
          kl.length = c.length ∧
          (∀ ch ∈ kl, ch = '0' ∨ ch = '1') ∧
          (chunks 7 (preprocess pl)).length = kl.length) :=
  ⟨by decide, by decide, claim8_chunk_sync [65, 66, 255] true 2 (by decide) (by decide)⟩

/-! ## Byte ranges of the reconstructed content -/

theorem parseBits_lt (l : List Char) : parseBits l < 2 ^ l.length := by
  induction l using List.reverseRecOn with
  | nil => simp [parseBits]
  | append_singleton l c ih =>
    rw [parseBits_append_single]
    simp only [List.length_append, List.length_singleton, Nat.pow_succ]
    by_cases h : c = '1' <;> simp [h] <;> omega

theorem process_binary_chunk_some (g : List Char) (w : Nat) (x : Nat) (e : Option Diag)
    (h : process_binary_chunk g w = (some x, e)) : x < 2 ^ w := by
  rw [process_binary_chunk] at h
  by_cases h1 : g.length ≠ w
  · rw [if_pos h1] at h
    simp at h
  · rw [if_neg h1] at h
    push_neg at h1
    by_cases h2 : all01 g
    · rw [if_neg (by simp [h2])] at h
      simp only [Prod.mk.injEq, Option.some.injEq] at h
      rw [← h.1, ← h1]
      exact parseBits_lt g
    · rw [if_pos (by simp [h2])] at h
      simp at h

theorem decodeGroups_mem_lt (w : Nat) (gs : List (List Char)) :
    ∀ b ∈ (decodeGroups w gs).1, b < 2 ^ w := by
  induction gs with
  | nil => simp [decodeGroups]
  | cons g gs ih =>
    intro b hb
    simp only [decodeGroups] at hb
    rcases hpc : process_binary_chunk g w with ⟨o, e⟩
    rw [hpc] at hb
    cases o with
    | none =>
      simp only [Option.toList_none, List.nil_append] at hb
      exact ih b hb
    | some x =>
      simp only [Option.toList_some] at hb
      rcases List.mem_cons.mp hb with hb | hb
      · rw [hb]
        exact process_binary_chunk_some g w x e hpc
      · exact ih b hb

theorem deconvert_binary_mem_lt (Ls : List (List Char)) :
    ∀ b ∈ (deconvert_binary Ls).1, b < 256 := by
  induction Ls with
  | nil => simp [deconvert_binary]
  | cons L Ls ih =>
    intro b hb
    simp only [deconvert_binary] at hb
    rcases List.mem_append.mp hb with hb | hb
    · rw [deconvertLine] at hb
      by_cases h01 : all01 (preprocess L)
      · rw [if_neg (by simp [h01])] at hb
        simp only [] at hb
        exact decodeGroups_mem_lt 8 _ b hb
      · rw [if_pos (by simpa using h01)] at hb
        simp at hb
    · exact ih b hb

theorem pyIntDigit_le (c : Char) (v : Nat) (h : pyIntDigit c = some v) : v ≤ 9 := by
  rw [pyIntDigit] at h
  by_cases hc : '0' ≤ c ∧ c ≤ '9'
  · rw [if_pos hc] at h
    simp only [Option.some.injEq] at h
    rcases hc with ⟨_, hc2⟩
    have : c.toNat ≤ 57 := by
      have := hc2
      rw [Char.le_def] at this
      simpa [Char.toNat] using this
    omega
  · rw [if_neg hc] at h
    simp at h

theorem decryptGroups_mem_lt (keyBits : List Char) (gs : List (List Char)) :
    ∀ ki ts ds kf, decryptGroups keyBits ki gs = some (ts, ds, kf) →
      ∀ b ∈ ts, b < 256 := by
  induction gs with
  | nil =>
    intro ki ts ds kf h
    simp only [decryptGroups, Option.some.injEq, Prod.mk.injEq] at h
    simp [← h.1]
  | cons g gs ih =>
    intro ki ts ds kf h
    rw [decryptGroups] at h
    by_cases hki : keyBits.length ≤ ki
    · rw [if_pos hki] at h
      simp only [Option.some.injEq, Prod.mk.injEq] at h
      simp [← h.1]
    · rw [if_neg hki] at h
      rcases hpc : process_binary_chunk g 7 with ⟨o, e⟩
      rw [hpc] at h
      cases o with
      | some seven =>
        simp only [] at h
        rcases hd : pyIntDigit (keyBits.getD ki ' ') with _ | lb
        · rw [hd] at h
          simp at h
        · rw [hd] at h
          rcases hrec : decryptGroups keyBits (ki + 1) gs with _ | ⟨ts1, ds1, kf1⟩
          · rw [hrec] at h
            simp at h
          · rw [hrec] at h
            simp only [Option.some.injEq, Prod.mk.injEq] at h
            intro b hb
            rw [← h.1] at hb
            rcases List.mem_cons.mp hb with hb | hb
            · rw [hb]
              have hs : seven < 2 ^ 7 := process_binary_chunk_some g 7 seven e hpc
              have hlb : lb ≤ 9 := pyIntDigit_le _ lb hd
              have h1 : seven <<< 1 < 2 ^ 8 := by
                rw [Nat.shiftLeft_eq]
                omega
              have h2 : lb < 2 ^ 8 := by omega
              exact Nat.or_lt_two_pow h1 h2
            · exact ih (ki + 1) ts1 ds1 kf1 hrec b hb
      | none =>
        simp only [] at h
        rcases hrec : decryptGroups keyBits ki gs with _ | ⟨ts1, ds1, kf1⟩
        · rw [hrec] at h
          simp at h
        · rw [hrec] at h
          simp only [Option.some.injEq, Prod.mk.injEq] at h
          intro b hb
          rw [← h.1] at hb
          exact ih ki ts1 ds1 kf1 hrec b hb

theorem decryptLine_mem_lt (keyBits : List Char) (L : List Char) :
    ∀ ki ts ds kf, decryptLine keyBits ki L = some (ts, ds, kf) →
      ∀ b ∈ ts, b < 256 := by
  intro ki ts ds kf h
  rw [decryptLine] at h
  by_cases h01 : all01 (preprocess L)
  · rw [if_neg (by simp [h01])] at h
    rcases hrec : decryptGroups keyBits ki (chunks 7 (preprocess L)) with _ | ⟨ts1, ds1, kf1⟩
    · rw [hrec] at h
      simp at h
    · rw [hrec] at h
      simp only [Option.some.injEq, Prod.mk.injEq] at h
      rw [← h.1]
      exact decryptGroups_mem_lt keyBits _ ki ts1 ds1 kf1 hrec
  · rw [if_pos (by simpa using h01)] at h
    simp only [Option.some.injEq, Prod.mk.injEq] at h
    simp [← h.1]

theorem decrypt_mem_lt (pls kls : List (List Char)) (ts : List Nat) (ds : List Diag)
    (h : decrypt pls kls = some (ts, ds)) : ∀ b ∈ ts, b < 256 := by
  rw [decrypt] at h
  have key : ∀ (Ls : List (List Char)) ki ts ds kf,
      decryptLines (keyStream kls) ki Ls = some (ts, ds, kf) → ∀ b ∈ ts, b < 256 := by
    intro Ls
    induction Ls with
    | nil =>
      intro ki ts ds kf h
      simp only [decryptLines, Option.some.injEq, Prod.mk.injEq] at h
      simp [← h.1]
    | cons L Ls ih =>
      intro ki ts ds kf h
      rw [decryptLines] at h
      rcases h1 : decryptLine (keyStream kls) ki L with _ | ⟨ts1, ds1, k2⟩
      · rw [h1] at h
        simp at h
      · rw [h1] at h
        simp only [] at h
        rcases h2 : decryptLines (keyStream kls) k2 Ls with _ | ⟨ts2, ds2, kf2⟩
        · rw [h2] at h
          simp at h
        · rw [h2] at h
          simp only [Option.some.injEq, Prod.mk.injEq] at h
          intro b hb
          rw [← h.1] at hb
          rcases List.mem_append.mp hb with hb | hb
          · exact decryptLine_mem_lt _ L ki ts1 ds1 k2 h1 b hb
          · exact ih k2 ts2 ds2 kf2 h2 b hb
  rcases hrec : decryptLines (keyStream kls) 0 pls with _ | ⟨ts1, ds1, kf1⟩
  · rw [hrec] at h
    simp at h
  · rw [hrec] at h
    simp only [Option.some.injEq, Prod.mk.injEq] at h
    rw [← h.1]
    exact key pls 0 ts1 ds1 kf1 hrec

/-- C10: both decoders return the reconstructed content as a sequence of code
points below 256 (the i-th code point is the i-th reconstructed byte), and the
external writer's UTF-8 encoding maps every code point of 128 or more to a
two-byte sequence instead of the original single byte. -/
theorem claim10_utf8_expansion (pls kls : List (List Char)) :
    (∀ b ∈ (deconvert_binary pls).1, b < 256 ∧
      (128 ≤ b → utf8EncodeChar b = [192 + b / 64, 128 + b % 64] ∧
        (utf8EncodeChar b).length = 2 ∧ utf8EncodeChar b ≠ [b])) ∧
    (∀ ts ds, decrypt pls kls = some (ts, ds) → ∀ b ∈ ts, b < 256 ∧
      (128 ≤ b → utf8EncodeChar b = [192 + b / 64, 128 + b % 64] ∧
        (utf8EncodeChar b).length = 2 ∧ utf8EncodeChar b ≠ [b])) ∧
    (∀ ts, utf8Encode ts = ts.flatMap utf8EncodeChar) := by
  have hutf : ∀ b : Nat, 128 ≤ b →
      utf8EncodeChar b = [192 + b / 64, 128 + b % 64] ∧
        (utf8EncodeChar b).length = 2 ∧ utf8EncodeChar b ≠ [b] := by
    intro b hb
    have he : utf8EncodeChar b = [192 + b / 64, 128 + b % 64] := by
      rw [utf8EncodeChar, if_neg (by omega)]
    refine ⟨he, by rw [he]; rfl, by rw [he]; simp⟩
  refine ⟨fun b hb => ⟨deconvert_binary_mem_lt pls b hb, hutf b⟩,
    fun ts ds h b hb => ⟨decrypt_mem_lt pls kls ts ds h b hb, hutf b⟩,
    fun ts => rfl⟩

theorem claim10_utf8_expansion_witness :
    (255 : Nat) ∈ (deconvert_binary ["11111111".toList]).1 ∧
      ((255 : Nat) < 256 ∧
        (128 ≤ (255 : Nat) →
          utf8EncodeChar 255 = [192 + 255 / 64, 128 + 255 % 64] ∧
          (utf8EncodeChar 255).length = 2 ∧ utf8EncodeChar 255 ≠ [255])) :=
  ⟨by simp [deconvert_binary, deconvertLine, preprocess, pyStrip, isPySpace,
      all01, chunks, decodeGroups, process_binary_chunk, parseBits],
   (claim10_utf8_expansion ["11111111".toList] []).1 255
    (by simp [deconvert_binary, deconvertLine, preprocess, pyStrip, isPySpace,
      all01, chunks, decodeGroups, process_binary_chunk, parseBits])⟩

/-! ## Abort analysis of decrypt -/

theorem pyIntDigit_of_01 (c : Char) (h : c = '0' ∨ c = '1') :
    (pyIntDigit c).isSome := by
  rcases h with h | h <;> rw [h] <;> decide

theorem decryptGroups_isSome (keyBits : List Char)
    (hk : ∀ c ∈ keyBits, c = '0' ∨ c = '1') (gs : List (List Char)) :
    ∀ ki, (decryptGroups keyBits ki gs).isSome := by
  induction gs with
  | nil =>
    intro ki
    simp [decryptGroups]
  | cons g gs ih =>
    intro ki
    rw [decryptGroups]
    by_cases hki : keyBits.length ≤ ki
    · rw [if_pos hki]
      rfl
    · rw [if_neg hki]
      rcases hpc : process_binary_chunk g 7 with ⟨o, e⟩
      cases o with
      | none =>
        obtain ⟨r, hr⟩ := Option.isSome_iff_exists.mp (ih ki)
        rw [hr]
        rcases r with ⟨ts, ds, kf⟩
        rfl
      | some seven =>
        have hmem : keyBits.getD ki ' ' ∈ keyBits := by
          rw [List.getD_eq_getElem?_getD, List.getElem?_eq_getElem (by omega)]
          exact List.getElem_mem _
        obtain ⟨v, hv⟩ := Option.isSome_iff_exists.mp (pyIntDigit_of_01 _ (hk _ hmem))
        rw [hv]
        obtain ⟨r, hr⟩ := Option.isSome_iff_exists.mp (ih (ki + 1))
        rw [hr]
        rcases r with ⟨ts, ds, kf⟩
        rfl

theorem decryptLine_isSome (keyBits : List Char)
    (hk : ∀ c ∈ keyBits, c = '0' ∨ c = '1') (ki : Nat) (L : List Char) :
    (decryptLine keyBits ki L).isSome := by
  rw [decryptLine]
  by_cases h01 : all01 (preprocess L)
  · rw [if_neg (by simp [h01])]
    obtain ⟨r, hr⟩ := Option.isSome_iff_exists.mp
      (decryptGroups_isSome keyBits hk (chunks 7 (preprocess L)) ki)
    rw [hr]
    rcases r with ⟨ts, ds, kf⟩
    rfl
  · rw [if_pos (by simpa using h01)]
    rfl

theorem decryptLines_isSome (keyBits : List Char)
    (hk : ∀ c ∈ keyBits, c = '0' ∨ c = '1') (Ls : List (List Char)) :
    ∀ ki, (decryptLines keyBits ki Ls).isSome := by
  induction Ls with
  | nil =>
    intro ki
    simp [decryptLines]
  | cons L Ls ih =>
    intro ki
    rw [decryptLines]
    obtain ⟨r, hr⟩ := Option.isSome_iff_exists.mp (decryptLine_isSome keyBits hk ki L)
    rw [hr]
    rcases r with ⟨ts, ds, k2⟩
    simp only []
    obtain ⟨r2, hr2⟩ := Option.isSome_iff_exists.mp (ih k2)
    rw [hr2]
    rcases r2 with ⟨ts2, ds2, kf⟩
    rfl

/-- C4 counterexample: a key file containing the character 'a' makes the
decrypt pass abort through the broad exception handler (`int('a')` raises
`ValueError`), returning empty content with no diagnostics — rather than
producing one Diagnostic, skipping the unit and continuing. -/
theorem claim4_counterexample :
    decrypt ["0100000".toList] [['a']] = none := by
  simp [decrypt, decryptLines, decryptLine, decryptGroups, keyStream, preprocess,
    pyStrip, isPySpace, all01, chunks, process_binary_chunk, parseBits, pyIntDigit]

/-- C4 (amended): provided every character of the materialised key stream is
'0' or '1', recoverable content errors never abort a decrypt pass (the pass
returns a result rather than aborting); moreover, independently of the key
stream: an invalid payload line yields exactly one Diagnostic and is skipped
with the key index unchanged, a wrong-width group yields exactly one
Diagnostic and is skipped while the rest of the line continues, and an
exhausted key stream yields exactly one Diagnostic and stops the line.  (As
stated the original claim is false: a key-stream character outside '0'-'9'
aborts the pass — see the counterexample.) -/
theorem claim4_amended_recoverable_errors (pls kls : List (List Char))
    (hk : ∀ c ∈ keyStream kls, c = '0' ∨ c = '1') :
    (decrypt pls kls).isSome ∧
    (∀ keyBits ki L, all01 (preprocess L) = false →
      decryptLine keyBits ki L = some ([], [Diag.invalidCharLine (pyStrip L)], ki)) ∧
    (∀ (keyBits : List Char) (ki : Nat) g gs, ki < keyBits.length → g.length ≠ 7 →
      decryptGroups keyBits ki (g :: gs) =
        (decryptGroups keyBits ki gs).map
          (fun r => (r.1, Diag.skippedIncomplete g :: r.2.1, r.2.2))) ∧
    (∀ (keyBits : List Char) (ki : Nat) g gs, keyBits.length ≤ ki →
      decryptGroups keyBits ki (g :: gs) = some ([], [Diag.keyExhausted], ki)) := by
  refine ⟨?_, ?_, ?_, ?_⟩
  · rw [decrypt]
    obtain ⟨r, hr⟩ := Option.isSome_iff_exists.mp
      (decryptLines_isSome (keyStream kls) hk pls 0)
    rw [hr]
    rcases r with ⟨ts, ds, kf⟩
    rfl
  · intro keyBits ki L h
    rw [decryptLine, if_pos (by simp [h])]
  · intro keyBits ki g gs hki hg
    rw [decryptGroups, if_neg (by omega)]
    rw [process_binary_chunk, if_pos hg]
    rcases hrec : decryptGroups keyBits ki gs with _ | ⟨ts, ds, kf⟩ <;> simp [hrec]
  · intro keyBits ki g gs hki
    rw [decryptGroups, if_pos hki]

theorem claim4_amended_recoverable_errors_witness :
    (∀ c ∈ keyStream [['1']], c = '0' ∨ c = '1') ∧
      (decrypt ["0100000".toList] [['1']]).isSome :=
  ⟨by decide,
   (claim4_amended_recoverable_errors ["0100000".toList] [['1']] (by decide)).1⟩

/-! ## Key exhaustion -/

/-- Number of `KeyExhausted` diagnostics a pass over the chunk list `cs`
emits when only the first `j` key bits exist: lines are fully decoded while
the key lasts; the line where it runs out and every later line emit one
diagnostic each. -/
def coverCount : List (List Nat) → Nat → Nat
  | [], _ => 0
  | c :: cs, j => if c.length ≤ j then coverCount cs (j - c.length) else cs.length + 1

theorem decryptGroups_partial_key (c : List Nat) (hc : ∀ b ∈ c, b < 256)
    (keyBits : List Char) :
    ∀ ki, ki ≤ keyBits.length →
      keyBits.drop ki =
        (c.map (fun b => (split_byte b).2)).take (keyBits.length - ki) →
      keyBits.length - ki < c.length →
      decryptGroups keyBits ki (c.map (fun b => (split_byte b).1)) =
        some (c.take (keyBits.length - ki), [Diag.keyExhausted], keyBits.length) := by
  induction c with
  | nil =>
    intro ki _ _ h3
    simp at h3
  | cons b c ih =>
    intro ki hle hkey hlt
    by_cases heq : keyBits.length = ki
    · simp only [List.map_cons, decryptGroups]
      rw [if_pos (by omega)]
      rw [← heq]
      simp [heq]
    · have hki : ki < keyBits.length := by omega
      obtain ⟨j, hj⟩ : ∃ j, keyBits.length - ki = j + 1 :=
        ⟨keyBits.length - ki - 1, by omega⟩
      rw [hj] at hkey
      simp only [List.map_cons, List.take_succ_cons] at hkey
      simp only [List.map_cons, decryptGroups]
      rw [if_neg (by omega)]
      rw [split_byte_fst, process_binary_chunk_formatBin 7 _ (by omega)
        (shiftRight_one_lt b (hc b (by simp)))]
      have hget : keyBits.getD ki ' ' = (split_byte b).2 := by
        have h0 : keyBits[ki]? = (keyBits.drop ki)[0]? := by
          simp [List.getElem?_drop]
        rw [hkey] at h0
        simp only [List.getElem?_cons_zero] at h0
        simp [List.getD, h0]
      rw [hget, pyIntDigit_keyChar]
      have h6 : keyBits.length - (ki + 1) = j := by omega
      have hdrop : keyBits.drop (ki + 1) =
          (c.map (fun b => (split_byte b).2)).take (keyBits.length - (ki + 1)) := by
        have h1 : keyBits.drop (ki + 1) = (keyBits.drop ki).drop 1 := by
          rw [List.drop_drop]
        rw [h1, hkey, h6]
        simp only [List.drop_succ_cons, List.drop_zero]
      have hlt2 : keyBits.length - (ki + 1) < c.length := by
        have h5 : (b :: c).length = c.length + 1 := rfl
        omega
      rw [ih (fun b h => hc b (List.mem_cons_of_mem _ h)) (ki + 1) (by omega) hdrop hlt2]
      have htake : (b :: c).take (keyBits.length - ki) =
          b :: c.take (keyBits.length - (ki + 1)) := by
        rw [hj, h6, List.take_succ_cons]
      simp only [shift_join]
      rw [htake]

/-- A payload line reached after the key stream is exhausted yields exactly
one `KeyExhausted` diagnostic, no bytes, and leaves the key index unchanged. -/
theorem decryptLine_exhausted (keyBits : List Char) (ki : Nat)
    (hki : keyBits.length ≤ ki) (spacing : Bool) (c : List Nat)
    (hc : ∀ b ∈ c, b < 256) (hne : c ≠ []) :
    decryptLine keyBits ki
      (joinSep (if spacing then [' '] else []) (c.map (fun b => (split_byte b).1)))
      = some ([], [Diag.keyExhausted], ki) := by
  have hgs : ∀ g ∈ c.map (fun b => (split_byte b).1), ∀ ch ∈ g, ch = '0' ∨ ch = '1' := by
    intro g hg ch hch
    rcases List.mem_map.mp hg with ⟨b, _, hb⟩
    subst hb
    exact payloadGroup_all01 b ch hch
  have hlen : ∀ g ∈ c.map (fun b => (split_byte b).1), g.length = 7 := by
    intro g hg
    rcases List.mem_map.mp hg with ⟨b, hb, hb'⟩
    subst hb'
    exact payloadGroup_length b (hc b hb)
  have hmod : ((c.map (fun b => (split_byte b).1)).flatten).length % 7 = 0 := by
    rw [flatten_groups_length 7 _ hlen]
    exact Nat.mul_mod_right 7 _
  obtain ⟨g, gs, hg⟩ := List.exists_cons_of_ne_nil
    (show c.map (fun b => (split_byte b).1) ≠ [] by simp [hne])
  have hdg : decryptGroups keyBits ki (c.map (fun b => (split_byte b).1)) =
      some ([], [Diag.keyExhausted], ki) := by
    rw [hg, decryptGroups, if_pos hki]
  rw [decryptLine, preprocess_joinSep spacing _ hgs]
  rw [if_neg (by simp [all01_flatten _ hgs])]
  rw [chunks_flatten_groups 7 (by omega) _ hlen, hdg]
  simp only []
  rw [if_neg (fun hcon => hcon hmod)]
  simp

/-- Once the key stream is exhausted, every remaining payload line emits one
`KeyExhausted` diagnostic and contributes no bytes. -/
theorem decryptLines_exhausted (keyBits : List Char) (spacing : Bool)
    (cs : List (List Nat)) (hcs : ∀ c ∈ cs, c ≠ [] ∧ ∀ b ∈ c, b < 256) :
    ∀ ki, keyBits.length ≤ ki →
      decryptLines keyBits ki (cs.map (fun c => joinSep (if spacing then [' '] else [])
        (c.map (fun b => (split_byte b).1)))) =
        some ([], List.replicate cs.length Diag.keyExhausted, ki) := by
  induction cs with
  | nil =>
    intro ki _
    simp [decryptLines]
  | cons c cs ih =>
    intro ki hki
    simp only [List.map_cons, decryptLines]
    rw [decryptLine_exhausted keyBits ki hki spacing c (hcs c (by simp)).2
      (hcs c (by simp)).1]
    simp only []
    rw [ih (fun c hc => hcs c (List.mem_cons_of_mem _ hc)) ki hki]
    simp [List.replicate_succ]

/-- One payload line in which the key stream runs out mid-line: the bytes
whose key bits exist are reconstructed, one `KeyExhausted` diagnostic is
emitted, the rest of the line is not consumed, and the key index stops at the
end of the key stream. -/
theorem decryptLine_partial_key (spacing : Bool) (c : List Nat)
    (hc : ∀ b ∈ c, b < 256) (keyBits : List Char) (ki : Nat)
    (hle : ki ≤ keyBits.length)
    (hkey : keyBits.drop ki =
      (c.map (fun b => (split_byte b).2)).take (keyBits.length - ki))
    (hlt : keyBits.length - ki < c.length) :
    decryptLine keyBits ki
      (joinSep (if spacing then [' '] else []) (c.map (fun b => (split_byte b).1)))
      = some (c.take (keyBits.length - ki), [Diag.keyExhausted], keyBits.length) := by
  have hgs : ∀ g ∈ c.map (fun b => (split_byte b).1), ∀ ch ∈ g, ch = '0' ∨ ch = '1' := by
    intro g hg ch hch
    rcases List.mem_map.mp hg with ⟨b, _, hb⟩
    subst hb
    exact payloadGroup_all01 b ch hch
  have hlen : ∀ g ∈ c.map (fun b => (split_byte b).1), g.length = 7 := by
    intro g hg
    rcases List.mem_map.mp hg with ⟨b, hb, hb'⟩
    subst hb'
    exact payloadGroup_length b (hc b hb)
  rw [decryptLine, preprocess_joinSep spacing _ hgs]
  rw [if_neg (by simp [all01_flatten _ hgs])]
  rw [chunks_flatten_groups 7 (by omega) _ hlen]
  rw [decryptGroups_partial_key c hc keyBits ki hle hkey hlt]
  rw [flatten_groups_length 7 _ hlen]
  simp [Nat.mul_mod_right]

/-- The whole decrypt pass with a key stream covering only the first
`keyBits.length - ki` bytes: those bytes are reconstructed and every line
from the point of exhaustion on contributes one `KeyExhausted` diagnostic. -/
theorem decryptLines_partial_key (spacing : Bool) (cs : List (List Nat))
    (hcs : ∀ c ∈ cs, c ≠ [] ∧ ∀ b ∈ c, b < 256) (keyBits : List Char) :
    ∀ ki, ki ≤ keyBits.length →
      keyBits.drop ki =
        ((cs.map (fun c => c.map (fun b => (split_byte b).2))).flatten).take
          (keyBits.length - ki) →
      keyBits.length - ki < (cs.flatten).length →
      decryptLines keyBits ki (cs.map (fun c => joinSep (if spacing then [' '] else [])
        (c.map (fun b => (split_byte b).1)))) =
        some ((cs.flatten).take (keyBits.length - ki),
              List.replicate (coverCount cs (keyBits.length - ki)) Diag.keyExhausted,
              keyBits.length) := by
  induction cs with
  | nil =>
    intro ki _ _ h3
    simp at h3
  | cons c cs ih =>
    intro ki hle hkey hlt
    simp only [List.map_cons, List.flatten_cons] at hkey
    simp only [List.map_cons, List.flatten_cons, decryptLines]
    rw [List.take_append_eq_append_take] at hkey
    by_cases hcase : c.length ≤ keyBits.length - ki
    · rw [List.take_of_length_le (by simp; omega)] at hkey
      rw [decryptLine_encoded spacing c (hcs c (by simp)).2 keyBits ki
        (((cs.map (fun c => c.map (fun b => (split_byte b).2))).flatten).take
          (keyBits.length - ki - (c.map (fun b => (split_byte b).2)).length))
        hkey]
      simp only []
      have hdrop : keyBits.drop (ki + c.length) =
          ((cs.map (fun c => c.map (fun b => (split_byte b).2))).flatten).take
            (keyBits.length - (ki + c.length)) := by
        have h1 : keyBits.drop (ki + c.length) = (keyBits.drop ki).drop c.length := by
          rw [List.drop_drop, Nat.add_comm]
        rw [h1, hkey, List.drop_left' (by simp)]
        congr 1
        simp
        omega
      rw [ih (fun c hc => hcs c (List.mem_cons_of_mem _ hc)) (ki + c.length)
        (by omega) hdrop
        (by simp only [List.flatten_cons, List.length_append] at hlt; omega)]
      have e1 : List.take (keyBits.length - ki) (c ++ cs.flatten) =
          c ++ List.take (keyBits.length - (ki + c.length)) cs.flatten := by
        rw [List.take_append_eq_append_take, List.take_of_length_le hcase]
        congr 2
        omega
      have e2 : coverCount (c :: cs) (keyBits.length - ki) =
          coverCount cs (keyBits.length - (ki + c.length)) := by
        rw [coverCount, if_pos hcase]
        congr 1
        omega
      rw [e1, e2]
      simp
    · push_neg at hcase
      have hz : keyBits.length - ki - (c.map (fun b => (split_byte b).2)).length = 0 := by
        simp only [List.length_map]
        omega
      rw [hz, List.take_zero, List.append_nil] at hkey
      rw [decryptLine_partial_key spacing c (hcs c (by simp)).2 keyBits ki hle hkey hcase]
      simp only []
      rw [decryptLines_exhausted keyBits spacing cs
        (fun c hc => hcs c (List.mem_cons_of_mem _ hc)) keyBits.length le_rfl]
      have e1 : List.take (keyBits.length - ki) (c ++ cs.flatten) =
          List.take (keyBits.length - ki) c := by
        rw [List.take_append_eq_append_take]
        have h0 : keyBits.length - ki - c.length = 0 := by omega
        rw [h0, List.take_zero, List.append_nil]
      have e2 : coverCount (c :: cs) (keyBits.length - ki) = cs.length + 1 := by
        rw [coverCount, if_neg (by omega)]
      rw [e1, e2, List.replicate_succ]
      simp

theorem coverCount_chunks (n : Nat) (hn : 0 < n) (B : List Nat) (k : Nat)
    (hk : k < B.length) :
    coverCount (chunks n B) k = (chunks n B).length - k / n := by
  have key : ∀ (fuel : Nat) (B : List Nat), B.length ≤ fuel → ∀ k, k < B.length →
      coverCount (chunks n B) k = (chunks n B).length - k / n := by
    intro fuel
    induction fuel with
    | zero =>
      intro B hB k hk
      omega
    | succ fuel ih =>
      intro B hB k hk
      have hne : B ≠ [] := by
        intro hc
        subst hc
        simp at hk
      rw [chunks_cons n B hne hn]
      by_cases hbn : B.length ≤ n
      · have hd : B.drop n = [] := List.drop_eq_nil_of_le hbn
        rw [hd, chunks_nil, List.take_of_length_le hbn]
        rw [coverCount, if_neg (by omega), Nat.div_eq_of_lt (by omega)]
        simp [coverCount]
      · push_neg at hbn
        have htl : (B.take n).length = n := by
          rw [List.length_take]
          omega
        have hdl : (B.drop n).length = B.length - n := by simp
        rw [coverCount]
        by_cases hkn : n ≤ k
        · rw [if_pos (by rw [htl]; omega), htl]
          rw [ih (B.drop n) (by rw [hdl]; omega) (k - n) (by rw [hdl]; omega)]
          rw [Nat.div_eq_sub_div hn hkn]
          simp only [List.length_cons]
          omega
        · push_neg at hkn
          rw [if_neg (by rw [htl]; omega), Nat.div_eq_of_lt hkn]
          simp only [List.length_cons]
          omega
  exact key B.length B le_rfl k hk

/-- C5: decrypting an `encrypt` payload with a key stream holding only the
first `k < |B|` key bits reconstructs exactly the bytes whose key bits were
available (`B.take k`), emits a `KeyExhausted` diagnostic when the key index
reaches the key stream length, consumes nothing further on that line, and
still attempts every subsequent line — each of which emits one further
`KeyExhausted` diagnostic, for `(number of lines) - k / chunkSize` in all. -/
theorem claim5_key_exhaustion (B : List Nat) (spacing : Bool) (n k : Nat)
    (hn : 0 < n) (hB : ∀ b ∈ B, b < 256) (hk : k < B.length) :
    decrypt (encrypt spacing n B).1
      [(B.map (fun b => (split_byte b).2)).take k] =
      some (B.take k,
        List.replicate ((chunks n B).length - k / n) Diag.keyExhausted) := by
  have hcs : ∀ c ∈ chunks n B, c ≠ [] ∧ ∀ b ∈ c, b < 256 := by
    intro c hc
    have h := chunks_mem_props n hn B c hc
    exact ⟨h.1, fun b hb => hB b (h.2 b hb)⟩
  have hks : keyStream [(B.map (fun b => (split_byte b).2)).take k] =
      (B.map (fun b => (split_byte b).2)).take k := by
    rw [keyStream]
    simp only [List.map_cons, List.map_nil, List.flatten_cons, List.flatten_nil,
      List.append_nil]
    apply pyStrip_eq_self
    intro ch hch
    have hch2 : ch ∈ B.map (fun b => (split_byte b).2) := List.take_subset _ _ hch
    rcases List.mem_map.mp hch2 with ⟨b, _, hb⟩
    subst hb
    rcases keyChar_01 b with h0 | h0 <;> simp [h0, isPySpace]
  have hkb_len : ((B.map (fun b => (split_byte b).2)).take k).length = k := by
    rw [List.length_take, List.length_map]
    omega
  have hflat : ((chunks n B).map (fun c => c.map (fun b => (split_byte b).2))).flatten
      = B.map (fun b => (split_byte b).2) := by
    rw [← List.map_flatten, chunks_flatten n hn B]
  have hkey0 : ((B.map (fun b => (split_byte b).2)).take k).drop 0 =
      (((chunks n B).map (fun c => c.map (fun b => (split_byte b).2))).flatten).take
        (((B.map (fun b => (split_byte b).2)).take k).length - 0) := by
    rw [List.drop_zero, hflat, hkb_len, Nat.sub_zero]
  have hlt0 : ((B.map (fun b => (split_byte b).2)).take k).length - 0 <
      ((chunks n B).flatten).length := by
    rw [hkb_len, chunks_flatten n hn B]
    omega
  rw [decrypt, hks, encrypt]
  rw [decryptLines_partial_key spacing (chunks n B) hcs
    ((B.map (fun b => (split_byte b).2)).take k) 0 (Nat.zero_le _) hkey0 hlt0]
  simp only [hkb_len, Nat.sub_zero, chunks_flatten n hn B,
    coverCount_chunks n hn B k hk]

theorem claim5_key_exhaustion_witness :
    0 < 2 ∧ (∀ b ∈ [65, 66, 67, 68, 69], b < 256) ∧ 3 < ([65, 66, 67, 68, 69] : List Nat).length ∧
      decrypt (encrypt true 2 [65, 66, 67, 68, 69]).1
        [(([65, 66, 67, 68, 69] : List Nat).map (fun b => (split_byte b).2)).take 3] =
        some (([65, 66, 67, 68, 69] : List Nat).take 3,
          List.replicate ((chunks 2 ([65, 66, 67, 68, 69] : List Nat)).length - 3 / 2)
            Diag.keyExhausted) :=
  ⟨by decide, by decide, by decide,
   claim5_key_exhaustion [65, 66, 67, 68, 69] true 2 3 (by decide) (by decide) (by decide)⟩

end BinCrypt
